import Mathlib

/-!
Verification of the freehand stroke rendering engine of the DrawFree
repository (the `Canvas` component). Numbers are modelled as exact
rationals (`ℚ`); the mutable refs `lastPoint` / `distRemainder` are
modelled as an explicit `CanvasState` threaded through the event
handlers; `Math.random()` outputs are injected as an explicit stream
`rnds : ℕ → ℚ × ℚ`; the 2D canvas context calls issued by `drawStamp`
are reified as `RenderOp` values, in order.
-/

/-- Tool enumeration, from `types.ts` (`export enum ToolType`). -/
inductive ToolType
  | PENCIL
  | BRUSH
  | ERASER
  | FILL
  | PIXEL
  | INK
  | CHARCOAL
deriving DecidableEq, Repr

/-- Pointer sample, from `types.ts` (`interface Point`): `pressure` and
`tilt` are optional fields. -/
structure Point where
  x : ℚ
  y : ℚ
  pressure : Option ℚ := none
  tilt : Option ℚ := none
deriving DecidableEq, Repr

/-- Brush settings, from `types.ts` (`interface DrawingSettings`). -/
structure DrawingSettings where
  color : String
  size : ℚ
  opacity : ℚ
  hardness : ℚ
  spacing : ℚ
  jitter : ℚ
  tool : ToolType
  isStylus : Bool
deriving DecidableEq, Repr

/-- Background colour `#F5F5DC` used for the initial fill, for `clear`,
and as the eraser paint. -/
def bgColor : String := "#F5F5DC"

/-- Semantics of the JavaScript expression `p || 0.5` applied to an
optional pressure: `undefined` and `0` are falsy and give `0.5`. -/
def presOr (p : Option ℚ) : ℚ :=
  match p with
  | none => 1 / 2
  | some v => if v = 0 then 1 / 2 else v

/-- One primitive painting call issued to the 2D context by `drawStamp`:
an axis-aligned opaque rectangle fill (`fillRect`, pixel mode), a solid
disc (`arc` + `fill` with a plain `fillStyle`), or a radial-gradient disc
(`arc` + `fill` with the two-stop gradient installed at lines 367-371).
`alpha` records the ambient `globalAlpha`. -/
inductive RenderOp
  | fillRect (x y w h : ℚ) (alpha : ℚ) (color : String)
  | fillCircleSolid (cx cy r : ℚ) (alpha : ℚ) (color : String)
  | fillCircleGradient (cx cy r : ℚ) (alpha : ℚ) (hardness : ℚ) (color : String)
deriving DecidableEq, Repr

/-- Pixel-art cell side: `Math.max(1, Math.floor(settings.size / 2))`
(line 340). -/
def pixelSize (s : DrawingSettings) : ℤ := max 1 ⌊s.size / 2⌋

/-- Grid snap `Math.floor(v / pixelSize) * pixelSize` (lines 341-342). -/
def pixelSnap (ps : ℤ) (v : ℚ) : ℤ := ⌊v / (ps : ℚ)⌋ * ps

/-- Shallow embedding of `drawStamp` (lines 330-384). The two
`Math.random()` draws used for jitter are supplied as `rx ry` (each
standing for one output in `[0, 1)`); when `settings.jitter` is not
positive the source skips the draws and leaves `jx = jy = 0`. -/
def drawStamp (s : DrawingSettings) (pt : Point) (rx ry : ℚ) : RenderOp :=
  let pressure : ℚ := if s.isStylus then presOr pt.pressure else 1
  let size : ℚ := s.size * pressure
  if s.tool = ToolType.PIXEL then
    RenderOp.fillRect ((pixelSnap (pixelSize s) pt.x : ℤ) : ℚ)
      ((pixelSnap (pixelSize s) pt.y : ℤ) : ℚ)
      ((pixelSize s : ℤ) : ℚ) ((pixelSize s : ℤ) : ℚ) 1
      (if s.tool = ToolType.ERASER then bgColor else s.color)
  else
    let isEraser : Bool := s.tool = ToolType.ERASER
    let jx : ℚ := if 0 < s.jitter then (rx - 1 / 2) * s.jitter * size * 2 else 0
    let jy : ℚ := if 0 < s.jitter then (ry - 1 / 2) * s.jitter * size * 2 else 0
    let drawX := pt.x + jx
    let drawY := pt.y + jy
    let color := if isEraser then bgColor else s.color
    if s.hardness < 1 then
      RenderOp.fillCircleGradient drawX drawY (size / 2) s.opacity s.hardness color
    else
      RenderOp.fillCircleSolid drawX drawY (size / 2) s.opacity color

/-- Radius of the disc painted by a stamp op (the `size / 2` passed to
`ctx.arc`); a rectangle op has no disc radius and is assigned `0`. -/
def opRadius : RenderOp → ℚ
  | RenderOp.fillRect _ _ _ _ _ _ => 0
  | RenderOp.fillCircleSolid _ _ r _ _ => r
  | RenderOp.fillCircleGradient _ _ r _ _ _ => r

/-- Reference point of an op: rectangle origin, or disc centre. -/
def opCenter : RenderOp → ℚ × ℚ
  | RenderOp.fillRect x y _ _ _ _ => (x, y)
  | RenderOp.fillCircleSolid cx cy _ _ _ => (cx, cy)
  | RenderOp.fillCircleGradient cx cy _ _ _ _ => (cx, cy)

/-- Alpha of the two-stop radial gradient installed by `drawStamp`
(stops: offset `hardness` fully opaque paint, offset `1` fully
transparent) at normalized offset `u ≤ 1`, per the canvas gradient rule:
constant before the first stop, linear interpolation between stops. -/
def gradientAlpha (hardness u : ℚ) : ℚ :=
  if u ≤ hardness then 1 else (1 - u) / (1 - hardness)

/-- Alpha painted by a stamp op at distance `d` from its centre: the
global alpha inside a solid disc, the global alpha scaled by the
gradient profile inside a soft disc, zero outside the disc. A rectangle
fill has no radial profile and contributes its constant alpha. -/
def opCoverage (op : RenderOp) (d : ℚ) : ℚ :=
  match op with
  | RenderOp.fillRect _ _ _ _ a _ => a
  | RenderOp.fillCircleSolid _ _ r a _ => if d ≤ r then a else 0
  | RenderOp.fillCircleGradient _ _ r a h _ =>
      if d ≤ r then a * gradientAlpha h (d / r) else 0

/-- Effective disc radius of a standard-mode stamp, read off lines
334-336 together with the `size / 2` radius at the `ctx.arc` calls. -/
def stampRadius (s : DrawingSettings) (pt : Point) : ℚ :=
  s.size * (if s.isStylus then presOr pt.pressure else 1) / 2

/-- Raster surface: colour of each device pixel. -/
abbrev Surface := ℤ × ℤ → String

/-- Semantics of `ctx.fillRect(x, y, w, h)` at `globalAlpha = 1`: every
pixel inside the rectangle is overwritten with the fill colour. -/
def fillRectOn (S : Surface) (x y w h : ℚ) (c : String) : Surface :=
  fun p =>
    if x ≤ (p.1 : ℚ) ∧ (p.1 : ℚ) < x + w ∧ y ≤ (p.2 : ℚ) ∧ (p.2 : ℚ) < y + h then c
    else S p

/-- Spacing step of the interpolator: `Math.max(0.5, settings.size *
settings.spacing)` (line 394). -/
def stepOf (s : DrawingSettings) : ℚ := max (1 / 2) (s.size * s.spacing)

/-- Body of the interpolation while-loop (lines 399-412): ratio
`t = currentDist / dist`, linear interpolation of position and of the
`|| 0.5`-defaulted pressures, then `drawStamp`. `k` is the index of this
stamp within the current call, used to address the random stream. -/
def lerpStamp (s : DrawingSettings) (a b : Point) (rnds : ℕ → ℚ × ℚ)
    (dist : ℚ) (k : ℕ) (currentDist : ℚ) : RenderOp :=
  let t := currentDist / dist
  let x := a.x + (b.x - a.x) * t
  let y := a.y + (b.y - a.y) * t
  let startP := presOr a.pressure
  let endP := presOr b.pressure
  let pressure := startP + (endP - startP) * t
  drawStamp s { x := x, y := y, pressure := some pressure, tilt := none }
    (rnds k).1 (rnds k).2

/-- The while-loop of `interpolate` (lines 399-412), written with an
explicit fuel argument: `while (currentDist <= dist) { stamp;
currentDist += step }`, returning the emitted ops in order together with
`currentDist - dist`, the remainder stored at line 415. With sufficient
fuel (`interpFuel`) the fuel never runs out, see `interpLoop_spec`. -/
def interpLoop (s : DrawingSettings) (a b : Point) (rnds : ℕ → ℚ × ℚ)
    (dist step : ℚ) : ℕ → ℕ → ℚ → List RenderOp × ℚ
  | 0, _, currentDist => ([], currentDist - dist)
  | fuel + 1, k, currentDist =>
      if currentDist ≤ dist then
        let rest := interpLoop s a b rnds dist step fuel (k + 1) (currentDist + step)
        (lerpStamp s a b rnds dist k currentDist :: rest.1, rest.2)
      else ([], currentDist - dist)

/-- Fuel sufficient for `interpLoop`: since the source guarantees
`step ≥ 0.5 > 0`, the loop runs at most this many times. -/
def interpFuel (dist step currentDist : ℚ) : ℕ :=
  (⌈(dist - currentDist) / step⌉ + 1).toNat

/-- Shallow embedding of `interpolate` (lines 386-416). The source
computes `dist = Math.sqrt(dx*dx + dy*dy)`; since a square root is in
general irrational, `dist` is taken as a parameter, related to the
endpoints by `IsDist`. The mutable `distRemainder` ref is passed in as
`carry` and the updated remainder is returned. -/
def interpolate (s : DrawingSettings) (a b : Point) (rnds : ℕ → ℚ × ℚ)
    (dist carry : ℚ) : List RenderOp × ℚ :=
  interpLoop s a b rnds dist (stepOf s) (interpFuel dist (stepOf s) carry) 0 carry

/-- The value `dist` computed at line 390 is the euclidean distance of
the two points: nonnegative, with square `dx*dx + dy*dy`. -/
def IsDist (a b : Point) (d : ℚ) : Prop :=
  0 ≤ d ∧ d ^ 2 = (b.x - a.x) ^ 2 + (b.y - a.y) ^ 2

/-- Number of stamps the walk emits from `currentDist`: the count of
`k ≥ 0` with `currentDist + k * step ≤ dist` (closed form; tied to the
walk by `stampCount_lt_iff` and `interpLoop_spec`). -/
def stampCount (dist step currentDist : ℚ) : ℕ :=
  if currentDist ≤ dist then (⌊(dist - currentDist) / step⌋ + 1).toNat else 0

/-- Cross-event stroke state held by the `Canvas` component: the
`isDrawing` React state and the `lastPoint` / `distRemainder` refs. -/
structure CanvasState where
  isDrawing : Bool
  lastPoint : Option Point
  distRemainder : ℚ
deriving DecidableEq, Repr

/-- Initial component state: not drawing, no last point, zero
remainder. -/
def initialState : CanvasState := ⟨false, none, 0⟩

/-- Shallow embedding of `startDrawing` (lines 320-328): set the drawing
flag, record the start point, reset the remainder to 0, stamp once at
the start point. The third component counts `onStrokeEnd` firings. -/
def startDrawing (s : DrawingSettings) (rnds : ℕ → ℚ × ℚ) (pt : Point)
    (_st : CanvasState) : CanvasState × List RenderOp × ℕ :=
  (⟨true, some pt, 0⟩, [drawStamp s pt (rnds 0).1 (rnds 0).2], 0)

/-- Shallow embedding of `continueDrawing` (lines 418-430): early-return
when not drawing or no last point; pixel tool stamps the current point
directly; otherwise interpolate from the last point, updating the
remainder; finally the last point becomes the current point. -/
def continueDrawing (s : DrawingSettings) (rnds : ℕ → ℚ × ℚ) (dist : ℚ)
    (pt : Point) (st : CanvasState) : CanvasState × List RenderOp × ℕ :=
  match st.isDrawing, st.lastPoint with
  | true, some lp =>
      if s.tool = ToolType.PIXEL then
        (⟨true, some pt, st.distRemainder⟩,
          [drawStamp s pt (rnds 0).1 (rnds 0).2], 0)
      else
        let r := interpolate s lp pt rnds dist st.distRemainder
        (⟨true, some pt, r.2⟩, r.1, 0)
  | _, _ => (st, [], 0)

/-- Shallow embedding of `stopDrawing` (lines 432-438): when drawing,
clear the flag and the last point and fire `onStrokeEnd` once; the
`distRemainder` ref is not touched. -/
def stopDrawing (st : CanvasState) : CanvasState × List RenderOp × ℕ :=
  if st.isDrawing then
    ({ st with isDrawing := false, lastPoint := none }, [], 1)
  else (st, [], 0)

/-- Host-visible error signals that canvas operations could raise. -/
inductive HostSignal
  | imageDecodeError
deriving DecidableEq, Repr

/-- Shallow embedding of `loadImage` (lines 283-293). Image decoding is
external and supplied as the oracle `decode` (`none` = the base64
payload fails to decode). The source installs only an `onload` handler
on the `Image`; on successful decode `ctx.drawImage(img, 0, 0, w, h)`
replaces the whole surface, on failure no handler runs: the surface is
untouched and no signal is raised. -/
def loadImage (decode : String → Option Surface) (b64 : String)
    (S : Surface) : Surface × List HostSignal :=
  match decode b64 with
  | some img => (img, [])
  | none => (S, [])

/-- Cumulative run of `interpolate` over consecutive sub-segments
`(start, end, dist)`, threading the returned remainder into the next
call exactly as `continueDrawing` does across pointer-move events;
returns the total number of emitted stamps and the final remainder. -/
def runSegs (s : DrawingSettings) (rnds : ℕ → ℚ × ℚ) (carry : ℚ) :
    List (Point × Point × ℚ) → ℕ × ℚ
  | [] => (0, carry)
  | seg :: rest =>
      let r := interpolate s seg.1 seg.2.1 rnds seg.2.2 carry
      let rr := runSegs s rnds r.2 rest
      (r.1.length + rr.1, rr.2)

/-- A standard (non-pixel, non-fill) drawing mode. -/
def standardTool (t : ToolType) : Prop :=
  t = ToolType.PENCIL ∨ t = ToolType.BRUSH ∨ t = ToolType.INK ∨
    t = ToolType.CHARCOAL ∨ t = ToolType.ERASER

theorem stepOf_pos (s : DrawingSettings) : 0 < stepOf s :=
  lt_of_lt_of_le (by norm_num) (le_max_left _ _)

/-- The walk emits exactly the parameters `currentDist + k * step` that
do not exceed `dist`: `stampCount` counts them. -/
theorem stampCount_lt_iff (dist step currentDist : ℚ) (hs : 0 < step) (k : ℕ) :
    k < stampCount dist step currentDist ↔ currentDist + k * step ≤ dist := by
  unfold stampCount
  by_cases h : currentDist ≤ dist
  · rw [if_pos h, Int.lt_toNat, Int.lt_add_one_iff, Int.le_floor, le_div_iff₀ hs]
    push_cast
    constructor <;> intro hk <;> linarith
  · rw [if_neg h]
    simp only [Nat.not_lt_zero, false_iff]
    intro hk
    have h0 : (0 : ℚ) ≤ (k : ℚ) * step := mul_nonneg (by positivity) hs.le
    exact h (by linarith)

/-- With `interpFuel` much fuel, the while-loop terminates before the
fuel runs out. -/
theorem interpFuel_spec (dist step currentDist : ℚ) (hs : 0 < step) :
    dist - currentDist < interpFuel dist step currentDist * step := by
  unfold interpFuel
  have h1 : (dist - currentDist) / step ≤ (⌈(dist - currentDist) / step⌉ : ℚ) :=
    Int.le_ceil _
  have h2 : ((⌈(dist - currentDist) / step⌉ + 1 : ℤ) : ℚ) ≤
      (((⌈(dist - currentDist) / step⌉ + 1).toNat : ℕ) : ℚ) := by
    exact_mod_cast Int.self_le_toNat _
  have h3 : (dist - currentDist) / step <
      (((⌈(dist - currentDist) / step⌉ + 1).toNat : ℕ) : ℚ) := by
    push_cast at h2 ⊢
    linarith
  calc dist - currentDist = (dist - currentDist) / step * step := by field_simp
    _ < _ := mul_lt_mul_of_pos_right h3 hs

theorem nat_eq_of_lt_iff {m n : ℕ} (h : ∀ k, k < m ↔ k < n) : m = n := by
  have h1 := h m
  have h2 := h n
  omega

/-- One loop iteration consumes one stamp from the count. -/
theorem stampCount_succ (dist step currentDist : ℚ) (hs : 0 < step)
    (h : currentDist ≤ dist) :
    stampCount dist step currentDist = stampCount dist step (currentDist + step) + 1 := by
  have h0 : 0 < stampCount dist step currentDist := by
    rw [stampCount_lt_iff dist step currentDist hs 0]
    push_cast
    linarith
  have hiff : ∀ j : ℕ, j < stampCount dist step (currentDist + step) ↔
      j + 1 < stampCount dist step currentDist := by
    intro j
    rw [stampCount_lt_iff _ _ _ hs, stampCount_lt_iff _ _ _ hs]
    push_cast
    constructor <;> intro hj <;> linarith
  have h1 := hiff (stampCount dist step (currentDist + step))
  have h2 := hiff (stampCount dist step currentDist - 1)
  omega

/-- Closed form of the while-loop: with enough fuel it emits exactly the
stamps at `currentDist, currentDist + step, ...` while that parameter
stays within `dist`, and returns the first exceeding parameter minus
`dist`. -/
theorem interpLoop_spec (s : DrawingSettings) (a b : Point) (rnds : ℕ → ℚ × ℚ)
    (dist step : ℚ) (hs : 0 < step) :
    ∀ (fuel k : ℕ) (currentDist : ℚ), dist - currentDist < fuel * step →
      interpLoop s a b rnds dist step fuel k currentDist =
        (((List.range (stampCount dist step currentDist)).map fun j =>
            lerpStamp s a b rnds dist (k + j) (currentDist + j * step)),
          currentDist + stampCount dist step currentDist * step - dist) := by
  intro fuel
  induction fuel with
  | zero =>
      intro k currentDist h
      have hnd : ¬ currentDist ≤ dist := by
        push_cast at h
        intro hc
        linarith
      simp only [interpLoop]
      rw [stampCount, if_neg hnd]
      simp
  | succ fuel ih =>
      intro k currentDist h
      simp only [interpLoop]
      by_cases hc : currentDist ≤ dist
      · rw [if_pos hc]
        have hrec := ih (k + 1) (currentDist + step) (by push_cast at h ⊢; linarith)
        rw [hrec, stampCount_succ dist step currentDist hs hc]
        simp only [Prod.mk.injEq]
        constructor
        · rw [List.range_succ_eq_map, List.map_cons, List.map_map]
          congr 1
          · norm_num
          · refine List.map_congr_left ?_
            intro j hj
            simp only [Function.comp_apply]
            have e1 : k + 1 + j = k + (j + 1) := by omega
            rw [e1]
            congr 1
            push_cast
            ring
        · push_cast
          ring
      · rw [if_neg hc]
        rw [stampCount, if_neg hc]
        simp

/-- Closed form of `interpolate`. -/
theorem interpolate_spec (s : DrawingSettings) (a b : Point) (rnds : ℕ → ℚ × ℚ)
    (dist carry : ℚ) :
    interpolate s a b rnds dist carry =
      (((List.range (stampCount dist (stepOf s) carry)).map fun j =>
          lerpStamp s a b rnds dist j (carry + j * stepOf s)),
        carry + stampCount dist (stepOf s) carry * stepOf s - dist) := by
  unfold interpolate
  rw [interpLoop_spec s a b rnds dist (stepOf s) (stepOf_pos s) _ 0 carry
    (interpFuel_spec dist (stepOf s) carry (stepOf_pos s))]
  simp

theorem interpolate_length (s : DrawingSettings) (a b : Point)
    (rnds : ℕ → ℚ × ℚ) (dist carry : ℚ) :
    (interpolate s a b rnds dist carry).1.length =
      stampCount dist (stepOf s) carry := by
  rw [interpolate_spec]
  simp

theorem interpolate_carry (s : DrawingSettings) (a b : Point)
    (rnds : ℕ → ℚ × ℚ) (dist carry : ℚ) :
    (interpolate s a b rnds dist carry).2 =
      carry + stampCount dist (stepOf s) carry * stepOf s - dist := by
  rw [interpolate_spec]

/-- Distance accounting of the walk is loss-free across a segment
boundary: walking `d1` and then `d2` with the carried remainder emits as
many stamps as walking `d1 + d2` at once, with the matching remainder
threading. -/
theorem stampCount_add (step : ℚ) (hs : 0 < step) (d1 d2 c : ℚ)
    (_h1 : 0 ≤ d1) (h2 : 0 ≤ d2) :
    stampCount (d1 + d2) step c =
      stampCount d1 step c +
        stampCount d2 step (c + stampCount d1 step c * step - d1) := by
  apply nat_eq_of_lt_iff
  intro k
  rw [stampCount_lt_iff _ _ _ hs]
  constructor
  · intro hk
    by_cases hkn : k < stampCount d1 step c
    · omega
    · push_neg at hkn
      obtain ⟨j, rfl⟩ : ∃ j, k = stampCount d1 step c + j :=
        ⟨k - stampCount d1 step c, by omega⟩
      have hj : j < stampCount d2 step (c + stampCount d1 step c * step - d1) := by
        rw [stampCount_lt_iff _ _ _ hs]
        push_cast at hk ⊢
        linarith
      omega
  · intro hk
    by_cases hkn : k < stampCount d1 step c
    · have hd1 := (stampCount_lt_iff d1 step c hs k).mp hkn
      linarith
    · push_neg at hkn
      obtain ⟨j, rfl⟩ : ∃ j, k = stampCount d1 step c + j :=
        ⟨k - stampCount d1 step c, by omega⟩
      have hj : j < stampCount d2 step (c + stampCount d1 step c * step - d1) := by
        omega
      have := (stampCount_lt_iff d2 step _ hs j).mp hj
      push_cast at this ⊢
      linarith

/-- Closed form of a sequential run over consecutive sub-segments:
total stamp count and final remainder depend only on the total path
length. -/
theorem runSegs_spec (s : DrawingSettings) (rnds : ℕ → ℚ × ℚ) :
    ∀ (segs : List (Point × Point × ℚ)) (g : Point × Point × ℚ) (c : ℚ),
      (∀ x ∈ g :: segs, 0 ≤ x.2.2) →
      runSegs s rnds c (g :: segs) =
        (stampCount (((g :: segs).map fun x => x.2.2).sum) (stepOf s) c,
         c + stampCount (((g :: segs).map fun x => x.2.2).sum) (stepOf s) c * stepOf s
           - ((g :: segs).map fun x => x.2.2).sum) := by
  intro segs
  induction segs with
  | nil =>
      intro g c h
      simp only [runSegs, List.map_cons, List.map_nil, List.sum_cons, List.sum_nil,
        add_zero, Nat.add_zero]
      rw [interpolate_length, interpolate_carry]
  | cons g2 rest ih =>
      intro g c h
      have hg : 0 ≤ g.2.2 := h g (by simp)
      have hrest : ∀ x ∈ g2 :: rest, 0 ≤ x.2.2 := fun x hx => h x (by simp [hx])
      have hsum : 0 ≤ ((g2 :: rest).map fun x => x.2.2).sum := by
        apply List.sum_nonneg
        intro y hy
        obtain ⟨x, hx, rfl⟩ := List.mem_map.mp hy
        exact hrest x hx
      rw [runSegs]
      rw [ih g2 _ hrest, interpolate_length, interpolate_carry]
      have key := stampCount_add (stepOf s) (stepOf_pos s) g.2.2
        (((g2 :: rest).map fun x => x.2.2).sum) c hg hsum
      simp only [List.map_cons, List.sum_cons]
      simp only [List.map_cons, List.sum_cons] at key
      rw [key]
      simp only [Prod.mk.injEq]
      constructor
      · trivial
      · push_cast
        ring

theorem standardTool_ne_pixel {t : ToolType} (h : standardTool t) :
    t ≠ ToolType.PIXEL := by
  rcases h with rfl | rfl | rfl | rfl | rfl <;> decide

/-- Concrete brush settings used for instantiations: pencil, size 10,
spacing 0.1 (so step = 1), hardness 1, jitter 0, opacity 1, non-stylus
(these are the application defaults in `App`). -/
def penSettings : DrawingSettings :=
  { color := "#1c1917", size := 10, opacity := 1, hardness := 1,
    spacing := 1 / 10, jitter := 0, tool := ToolType.PENCIL, isStylus := false }

/-- Deterministic random stream for instantiations. -/
def constRnds : ℕ → ℚ × ℚ := fun _ => (1 / 2, 1 / 2)

def origin : Point := { x := 0, y := 0, pressure := some (1 / 2), tilt := none }

def wP1 : Point := { x := 3, y := 4, pressure := some 1, tilt := none }

/-- C1: for endpoints at positive euclidean distance `dist`, a non-pixel
tool and carry ≥ 0, `interpolate` emits stamps exactly at the walk
parameters `t = carry + k * step` with `t ≤ dist`, where
`step = max(0.5, size * spacing)`; the k-th stamp is `drawStamp` applied
to the linear interpolation of position and pressure between `prev` and
`curr` at `u = t / dist`; and the returned carry is the first parameter
that exceeded `dist`, minus `dist`. -/
theorem interpolate_walk_exact (s : DrawingSettings) (rnds : ℕ → ℚ × ℚ)
    (prev curr : Point) (dist carry pp qp : ℚ)
    (_hdist : IsDist prev curr dist) (_hpos : 0 < dist) (_hcarry : 0 ≤ carry)
    (_htool : s.tool ≠ ToolType.PIXEL)
    (hpp : prev.pressure = some pp) (hpp0 : pp ≠ 0)
    (hqp : curr.pressure = some qp) (hqp0 : qp ≠ 0) :
    (∀ k : ℕ, carry + k * stepOf s ≤ dist ↔ k < stampCount dist (stepOf s) carry) ∧
    interpolate s prev curr rnds dist carry =
      (((List.range (stampCount dist (stepOf s) carry)).map fun k : ℕ =>
          drawStamp s
            { x := prev.x + (curr.x - prev.x) * ((carry + k * stepOf s) / dist),
              y := prev.y + (curr.y - prev.y) * ((carry + k * stepOf s) / dist),
              pressure := some (pp + (qp - pp) * ((carry + k * stepOf s) / dist)),
              tilt := none }
            (rnds k).1 (rnds k).2),
        carry + stampCount dist (stepOf s) carry * stepOf s - dist) ∧
    dist < carry + stampCount dist (stepOf s) carry * stepOf s := by
  refine ⟨fun k => (stampCount_lt_iff dist (stepOf s) carry (stepOf_pos s) k).symm,
    ?_, ?_⟩
  · rw [interpolate_spec]
    simp only [Prod.mk.injEq]
    refine ⟨List.map_congr_left ?_, trivial⟩
    intro j hj
    simp [lerpStamp, presOr, hpp, hqp, hpp0, hqp0]
  · by_contra hcon
    push_neg at hcon
    have hlt := (stampCount_lt_iff dist (stepOf s) carry (stepOf_pos s)
      (stampCount dist (stepOf s) carry)).mpr hcon
    exact absurd hlt (lt_irrefl _)

/-- Witness for C1 on the 3-4-5 segment with the default settings. -/
theorem interpolate_walk_exact_witness :
    (∀ k : ℕ, 0 + k * stepOf penSettings ≤ 5 ↔
      k < stampCount 5 (stepOf penSettings) 0) ∧
    interpolate penSettings origin wP1 constRnds 5 0 =
      (((List.range (stampCount 5 (stepOf penSettings) 0)).map fun k : ℕ =>
          drawStamp penSettings
            { x := origin.x + (wP1.x - origin.x) * ((0 + k * stepOf penSettings) / 5),
              y := origin.y + (wP1.y - origin.y) * ((0 + k * stepOf penSettings) / 5),
              pressure := some (1 / 2 + (1 - 1 / 2) * ((0 + k * stepOf penSettings) / 5)),
              tilt := none }
            (constRnds k).1 (constRnds k).2),
        0 + stampCount 5 (stepOf penSettings) 0 * stepOf penSettings - 5) ∧
    (5 : ℚ) < 0 + stampCount 5 (stepOf penSettings) 0 * stepOf penSettings :=
  interpolate_walk_exact penSettings constRnds origin wP1 5 0 (1 / 2) 1
    (by constructor <;> norm_num [origin, wP1]) (by norm_num) (by norm_num)
    (by decide) rfl (by norm_num) rfl (by norm_num)

/-- C2 counterexample: the source has no guard for `dist = 0`; with
carry 0 the loop condition `0 <= 0` holds, so the body runs once — the
ratio `t = currentDist / dist` IS evaluated with `dist = 0` — emitting
one degenerate stamp request, and the returned carry is `step = 1`, not
the unchanged `0`. -/
theorem interpolate_zero_dist_counterexample :
    IsDist origin origin 0 ∧
    (interpolate penSettings origin origin constRnds 0 0).1.length = 1 ∧
    (interpolate penSettings origin origin constRnds 0 0).2 = 1 := by
  refine ⟨⟨le_refl 0, by norm_num [origin]⟩, ?_, ?_⟩
  · rw [interpolate_length]
    norm_num [stampCount, stepOf, penSettings]
  · rw [interpolate_carry]
    norm_num [stampCount, stepOf, penSettings]

/-- C2 amended: at distance 0, when the incoming carry is positive the
call is the claimed no-op — no stamp, no division, carry unchanged; but
when the carry is 0 the loop body executes exactly once (so the division
`t / dist` is evaluated at `dist = 0`, yielding one degenerate stamp
request) and the carry comes back as the full step. -/
theorem interpolate_zero_dist_amended (s : DrawingSettings) (a b : Point)
    (rnds : ℕ → ℚ × ℚ) (carry : ℚ) :
    (0 < carry → interpolate s a b rnds 0 carry = ([], carry)) ∧
    (carry = 0 →
      (interpolate s a b rnds 0 carry).1.length = 1 ∧
      (interpolate s a b rnds 0 carry).2 = stepOf s) := by
  constructor
  · intro hc
    rw [interpolate_spec, stampCount, if_neg (not_le.mpr hc)]
    simp
  · rintro rfl
    constructor
    · rw [interpolate_length]
      simp [stampCount]
    · rw [interpolate_carry]
      simp [stampCount]

/-- Witness for C2 amended: both branches at concrete inputs. -/
theorem interpolate_zero_dist_amended_witness :
    interpolate penSettings origin origin constRnds 0 2 = ([], 2) ∧
    ((interpolate penSettings origin origin constRnds 0 0).1.length = 1 ∧
      (interpolate penSettings origin origin constRnds 0 0).2 = stepOf penSettings) :=
  ⟨(interpolate_zero_dist_amended penSettings origin origin constRnds 2).1 (by norm_num),
   (interpolate_zero_dist_amended penSettings origin origin constRnds 0).2 rfl⟩

/-- C3: splitting one move into consecutive sub-segments of the same
total path length and calling `interpolate` sequentially, feeding each
returned carry into the next call, produces exactly the same total stamp
count (a fortiori within ±1) and exactly the same final carry as a
single call on the undivided segment. -/
theorem interpolate_split_invariant (s : DrawingSettings) (rnds : ℕ → ℚ × ℚ)
    (a b : Point) (g : Point × Point × ℚ) (segs : List (Point × Point × ℚ))
    (carry D : ℚ) (_htool : s.tool ≠ ToolType.PIXEL) (_hcarry : 0 ≤ carry)
    (hseg : ∀ x ∈ g :: segs, 0 ≤ x.2.2)
    (hD : D = ((g :: segs).map fun x => x.2.2).sum) :
    runSegs s rnds carry (g :: segs) =
      ((interpolate s a b rnds D carry).1.length,
        (interpolate s a b rnds D carry).2) := by
  rw [runSegs_spec s rnds segs g carry hseg, interpolate_length, interpolate_carry, hD]

/-- Witness for C3: the 3-4-5 segment split as 3 + 2. -/
theorem interpolate_split_invariant_witness :
    runSegs penSettings constRnds 0 ((origin, wP1, 3) :: [(wP1, wP1, 2)]) =
      ((interpolate penSettings origin wP1 constRnds 5 0).1.length,
        (interpolate penSettings origin wP1 constRnds 5 0).2) :=
  interpolate_split_invariant penSettings constRnds origin wP1 (origin, wP1, 3)
    [(wP1, wP1, 2)] 0 5 (by decide) (by norm_num)
    (by intro x hx; simp at hx; rcases hx with rfl | rfl <;> norm_num)
    (by norm_num)

def activeState : CanvasState :=
  { isDrawing := true, lastPoint := some origin, distRemainder := 1 }

/-- C4 counterexample: ending a stroke whose distance remainder is 1
leaves the remainder at 1 — `stopDrawing` never zeroes
`distRemainder`, contrary to the claimed full reset. -/
theorem stopDrawing_remainder_counterexample :
    (stopDrawing activeState).1.distRemainder = 1 ∧ (1 : ℚ) ≠ 0 := by
  constructor
  · rfl
  · norm_num

/-- C4 amended: pointerUp / pointerLeave from an active stroke clears
`isDrawing` and `lastPoint` and fires the stroke-completion notification
once, but leaves `distanceRemainder` unchanged; the remainder is instead
reset to 0 by the next pointerDown (`startDrawing`). -/
theorem stopDrawing_amended (st : CanvasState) (h : st.isDrawing = true)
    (s : DrawingSettings) (rnds : ℕ → ℚ × ℚ) (pt : Point) (st1 : CanvasState) :
    stopDrawing st = ({ st with isDrawing := false, lastPoint := none }, [], 1) ∧
    (stopDrawing st).1.distRemainder = st.distRemainder ∧
    (startDrawing s rnds pt st1).1.distRemainder = 0 := by
  have he : stopDrawing st =
      ({ st with isDrawing := false, lastPoint := none }, [], 1) := by
    rw [stopDrawing, if_pos h]
  exact ⟨he, by rw [he], rfl⟩

/-- Witness for C4 amended at a concrete active state. -/
theorem stopDrawing_amended_witness :
    stopDrawing activeState =
      ({ activeState with isDrawing := false, lastPoint := none }, [], 1) ∧
    (stopDrawing activeState).1.distRemainder = activeState.distRemainder ∧
    (startDrawing penSettings constRnds origin initialState).1.distRemainder = 0 :=
  stopDrawing_amended activeState rfl penSettings constRnds origin initialState

def stylusSettings : DrawingSettings :=
  { penSettings with isStylus := true }

/-- C5: in a standard mode the rendered disc radius is
`settings.size * effectivePressure / 2` with `effectivePressure` the
point pressure for stylus input and `1` otherwise; consequently for
stylus input radii scale exactly like the pressures (so
radius(0.8)/radius(0.2) = 0.8/0.2 exactly), and non-stylus input renders
the same radius whatever pressure is reported. -/
theorem drawStamp_radius_pressure (s : DrawingSettings) (pt : Point)
    (rx ry p : ℚ) (hstd : standardTool s.tool)
    (hp : pt.pressure = some p) (hp0 : p ≠ 0) :
    opRadius (drawStamp s pt rx ry) =
      s.size * (if s.isStylus then p else 1) / 2 ∧
    (s.isStylus = true → ∀ q r rx1 ry1 rx2 ry2 : ℚ, q ≠ 0 → r ≠ 0 → s.size ≠ 0 →
      opRadius (drawStamp s { pt with pressure := some q } rx1 ry1) /
        opRadius (drawStamp s { pt with pressure := some r } rx2 ry2) = q / r) ∧
    (s.isStylus = false → ∀ (q : Option ℚ) (rx1 ry1 : ℚ),
      opRadius (drawStamp s { pt with pressure := q } rx1 ry1) = s.size / 2) := by
  have ht := standardTool_ne_pixel hstd
  refine ⟨?_, ?_, ?_⟩
  · by_cases hh : s.hardness < 1 <;> cases hst : s.isStylus <;>
      simp [drawStamp, ht, hh, hst, opRadius, presOr, hp, hp0]
  · intro hst q r rx1 ry1 rx2 ry2 hq hr hsize
    by_cases hh : s.hardness < 1 <;>
      simp [drawStamp, ht, hh, hst, opRadius, presOr, hq, hr] <;>
      field_simp <;> ring
  · intro hst q rx1 ry1
    by_cases hh : s.hardness < 1 <;>
      simp [drawStamp, ht, hh, hst, opRadius]

/-- Witness for C5: stylus pencil, pressures 0.8 and 0.2 give radius
ratio 0.8/0.2; also the radius formula at pressure 0.5. -/
theorem drawStamp_radius_pressure_witness :
    opRadius (drawStamp stylusSettings origin 0 0) =
      stylusSettings.size * (if stylusSettings.isStylus then (1 / 2 : ℚ) else 1) / 2 ∧
    opRadius (drawStamp stylusSettings { origin with pressure := some (4 / 5) } 0 0) /
      opRadius (drawStamp stylusSettings { origin with pressure := some (1 / 5) } 0 0) =
      (4 / 5 : ℚ) / (1 / 5) :=
  ⟨(drawStamp_radius_pressure stylusSettings origin 0 0 (1 / 2) (Or.inl rfl) rfl
      (by norm_num)).1,
   (drawStamp_radius_pressure stylusSettings origin 0 0 (1 / 2) (Or.inl rfl) rfl
      (by norm_num)).2.1 rfl (4 / 5) (1 / 5) 0 0 0 0 (by norm_num) (by norm_num)
      (by norm_num [stylusSettings, penSettings])⟩

/-- Coverage profile of a standard-mode stamp, read off the two
rendering branches of `drawStamp`. -/
theorem drawStamp_std_coverage (s : DrawingSettings) (pt : Point)
    (rx ry d : ℚ) (ht : s.tool ≠ ToolType.PIXEL) :
    opCoverage (drawStamp s pt rx ry) d =
      if s.hardness < 1 then
        (if d ≤ stampRadius s pt then
          s.opacity * gradientAlpha s.hardness (d / stampRadius s pt) else 0)
      else (if d ≤ stampRadius s pt then s.opacity else 0) := by
  by_cases hh : s.hardness < 1 <;>
    simp [drawStamp, ht, hh, opCoverage, stampRadius]

/-- C6: hardness falloff of a standard-mode stamp of radius r. For
hardness < 1 the disc is painted at the full global alpha out to
hardness * r, then fades linearly — the alpha is proportional to
(r - d) — reaching exactly zero at r, with zero coverage beyond r. For
hardness = 1 the alpha is uniform across the whole disc and zero
immediately outside r. -/
theorem drawStamp_hardness_profile (s : DrawingSettings) (pt : Point)
    (rx ry : ℚ) (hstd : standardTool s.tool) (hr : 0 < stampRadius s pt) :
    (s.hardness < 1 →
      (∀ d : ℚ, 0 ≤ d → d ≤ s.hardness * stampRadius s pt →
        opCoverage (drawStamp s pt rx ry) d = s.opacity) ∧
      (∀ d : ℚ, s.hardness * stampRadius s pt ≤ d → d ≤ stampRadius s pt →
        opCoverage (drawStamp s pt rx ry) d =
          s.opacity * ((stampRadius s pt - d) /
            ((1 - s.hardness) * stampRadius s pt))) ∧
      (∀ d : ℚ, stampRadius s pt < d → opCoverage (drawStamp s pt rx ry) d = 0)) ∧
    (s.hardness = 1 →
      (∀ d : ℚ, d ≤ stampRadius s pt →
        opCoverage (drawStamp s pt rx ry) d = s.opacity) ∧
      (∀ d : ℚ, stampRadius s pt < d →
        opCoverage (drawStamp s pt rx ry) d = 0)) := by
  have ht := standardTool_ne_pixel hstd
  have hrne : stampRadius s pt ≠ 0 := ne_of_gt hr
  constructor
  · intro hh
    have h1h : (1 : ℚ) - s.hardness ≠ 0 := ne_of_gt (by linarith)
    refine ⟨?_, ?_, ?_⟩
    · intro d _hd0 hdh
      rw [drawStamp_std_coverage s pt rx ry d ht, if_pos hh]
      have hmul : s.hardness * stampRadius s pt ≤ 1 * stampRadius s pt :=
        mul_le_mul_of_nonneg_right hh.le hr.le
      have hdr : d ≤ stampRadius s pt := by rw [one_mul] at hmul; linarith
      rw [if_pos hdr]
      have hu : d / stampRadius s pt ≤ s.hardness := (div_le_iff₀ hr).mpr (by linarith)
      simp only [gradientAlpha, if_pos hu, mul_one]
    · intro d hdl hdr
      rw [drawStamp_std_coverage s pt rx ry d ht, if_pos hh, if_pos hdr]
      by_cases hu : d / stampRadius s pt ≤ s.hardness
      · have hdle : d ≤ s.hardness * stampRadius s pt := (div_le_iff₀ hr).mp hu
        have hde : d = s.hardness * stampRadius s pt := le_antisymm hdle hdl
        simp only [gradientAlpha, if_pos hu, mul_one, hde]
        field_simp
        exact Or.inl (by ring)
      · push_neg at hu
        simp only [gradientAlpha, if_neg (not_le.mpr hu)]
        field_simp
        exact Or.inl (by ring)
    · intro d hd
      rw [drawStamp_std_coverage s pt rx ry d ht, if_pos hh,
        if_neg (not_le.mpr hd)]
  · intro hh
    have hnl : ¬ (s.hardness < 1) := by rw [hh]; exact lt_irrefl 1
    constructor
    · intro d hd
      rw [drawStamp_std_coverage s pt rx ry d ht, if_neg hnl, if_pos hd]
    · intro d hd
      rw [drawStamp_std_coverage s pt rx ry d ht, if_neg hnl,
        if_neg (not_le.mpr hd)]

def softSettings : DrawingSettings :=
  { penSettings with hardness := 1 / 2, size := 20 }

/-- Witness for C6: hardness 0.5, size 20 (radius 10), evaluated in the
falloff band at distance 7. -/
theorem drawStamp_hardness_profile_witness :
    opCoverage (drawStamp softSettings origin 0 0) 7 =
      softSettings.opacity * ((stampRadius softSettings origin - 7) /
        ((1 - softSettings.hardness) * stampRadius softSettings origin)) :=
  ((drawStamp_hardness_profile softSettings origin 0 0 (Or.inl rfl)
      (by norm_num [stampRadius, softSettings, penSettings, origin, presOr])).1
    (by norm_num [softSettings, penSettings])).2.1 7
    (by norm_num [stampRadius, softSettings, penSettings, origin, presOr])
    (by norm_num [stampRadius, softSettings, penSettings, origin, presOr])

theorem fillRectOn_idem (S : Surface) (x y w h : ℚ) (c : String) :
    fillRectOn (fillRectOn S x y w h c) x y w h c = fillRectOn S x y w h c := by
  funext p
  by_cases hc : x ≤ (p.1 : ℚ) ∧ (p.1 : ℚ) < x + w ∧ y ≤ (p.2 : ℚ) ∧ (p.2 : ℚ) < y + h <;>
    simp [fillRectOn, hc]

/-- C7: in pixel mode the stamp is exactly one fully-opaque
`fillRect` over the `pixelSize`-aligned cell containing the point, with
`pixelSize = max(1, floor(size / 2))`; it ignores pressure, the jitter
randoms and softness entirely; and painting the same cell twice leaves
the very same surface as painting it once. -/
theorem drawStamp_pixel_snap_idempotent (s : DrawingSettings) (pt : Point)
    (rx ry : ℚ) (ht : s.tool = ToolType.PIXEL) :
    drawStamp s pt rx ry =
      RenderOp.fillRect ((pixelSnap (pixelSize s) pt.x : ℤ) : ℚ)
        ((pixelSnap (pixelSize s) pt.y : ℤ) : ℚ)
        ((pixelSize s : ℤ) : ℚ) ((pixelSize s : ℤ) : ℚ) 1 s.color ∧
    (∀ (pr tl : Option ℚ) (rx1 ry1 : ℚ),
      drawStamp s { x := pt.x, y := pt.y, pressure := pr, tilt := tl } rx1 ry1 =
        drawStamp s pt rx ry) ∧
    (∀ S : Surface,
      fillRectOn (fillRectOn S ((pixelSnap (pixelSize s) pt.x : ℤ) : ℚ)
          ((pixelSnap (pixelSize s) pt.y : ℤ) : ℚ) ((pixelSize s : ℤ) : ℚ)
          ((pixelSize s : ℤ) : ℚ) s.color)
        ((pixelSnap (pixelSize s) pt.x : ℤ) : ℚ)
        ((pixelSnap (pixelSize s) pt.y : ℤ) : ℚ) ((pixelSize s : ℤ) : ℚ)
        ((pixelSize s : ℤ) : ℚ) s.color =
      fillRectOn S ((pixelSnap (pixelSize s) pt.x : ℤ) : ℚ)
        ((pixelSnap (pixelSize s) pt.y : ℤ) : ℚ) ((pixelSize s : ℤ) : ℚ)
        ((pixelSize s : ℤ) : ℚ) s.color) := by
  refine ⟨?_, ?_, fun S => fillRectOn_idem S _ _ _ _ _⟩
  · simp [drawStamp, ht]
  · intro pr tl rx1 ry1
    simp [drawStamp, ht]

def pixelSettings : DrawingSettings :=
  { penSettings with tool := ToolType.PIXEL }

/-- Witness for C7 at the concrete point (7, 3): with size 10 the cell
side is 5 and the snapped origin is (5, 0). -/
theorem drawStamp_pixel_snap_idempotent_witness :
    drawStamp pixelSettings { x := 7, y := 3, pressure := none, tilt := none } 0 0 =
      RenderOp.fillRect
        ((pixelSnap (pixelSize pixelSettings) 7 : ℤ) : ℚ)
        ((pixelSnap (pixelSize pixelSettings) 3 : ℤ) : ℚ)
        ((pixelSize pixelSettings : ℤ) : ℚ) ((pixelSize pixelSettings : ℤ) : ℚ)
        1 pixelSettings.color :=
  (drawStamp_pixel_snap_idempotent pixelSettings
    { x := 7, y := 3, pressure := none, tilt := none } 0 0 rfl).1

/-- C8: a pointerDown at p immediately followed by pointerUp, with no
moves in between: the down-transition emits exactly one stamp, namely
`drawStamp` at p (for a non-pixel tool without jitter its disc centre is
exactly p), and the up-transition emits zero stamps. -/
theorem tap_single_stamp (s : DrawingSettings) (rnds : ℕ → ℚ × ℚ)
    (p : Point) (st0 : CanvasState)
    (hj : s.jitter = 0) (ht : s.tool ≠ ToolType.PIXEL) :
    (startDrawing s rnds p st0).2.1 = [drawStamp s p (rnds 0).1 (rnds 0).2] ∧
    opCenter (drawStamp s p (rnds 0).1 (rnds 0).2) = (p.x, p.y) ∧
    (stopDrawing (startDrawing s rnds p st0).1).2.1 = [] := by
  refine ⟨rfl, ?_, rfl⟩
  by_cases hh : s.hardness < 1 <;> simp [drawStamp, ht, hj, hh, opCenter]

/-- Witness for C8 with the default pencil settings at the origin. -/
theorem tap_single_stamp_witness :
    (startDrawing penSettings constRnds origin initialState).2.1 =
      [drawStamp penSettings origin (constRnds 0).1 (constRnds 0).2] ∧
    opCenter (drawStamp penSettings origin (constRnds 0).1 (constRnds 0).2) =
      (origin.x, origin.y) ∧
    (stopDrawing (startDrawing penSettings constRnds origin initialState).1).2.1 = [] :=
  tap_single_stamp penSettings constRnds origin initialState rfl (by decide)

def blankSurface : Surface := fun _ => bgColor

/-- C9 counterexample: when the base64 payload fails to decode, the
surface is indeed left unmodified, but NO ImageDecodeError — indeed no
signal at all — reaches the host: `loadImage` installs no `onerror`
handler, so a decode failure is silent. -/
theorem loadImage_silent_failure_counterexample :
    loadImage (fun _ => none) "not-a-png" blankSurface = (blankSurface, []) ∧
    ([] : List HostSignal) ≠ [HostSignal.imageDecodeError] := by
  constructor
  · rfl
  · simp

/-- C9 amended: on decode failure the surface is left unmodified
(atomically: no partial blit) and the failure is silent — the empty
signal list, rather than an ImageDecodeError, reaches the host. -/
theorem loadImage_decode_failure_amended (decode : String → Option Surface)
    (b64 : String) (S : Surface) (h : decode b64 = none) :
    loadImage decode b64 S = (S, []) := by
  unfold loadImage
  rw [h]

/-- Witness for C9 amended with an always-failing decoder. -/
theorem loadImage_decode_failure_amended_witness :
    loadImage (fun _ => none) "zzzz" blankSurface = (blankSurface, []) :=
  loadImage_decode_failure_amended (fun _ => none) "zzzz" blankSurface rfl

/-- C10: a pointerMove delivered while no stroke is active (the drawing
flag is down, or there is no last point) is a complete no-op: no stamp
is emitted, no notification fires, and the state — in particular
`lastPoint` and `distRemainder` — is unchanged. -/
theorem continueDrawing_idle_noop (s : DrawingSettings) (rnds : ℕ → ℚ × ℚ)
    (dist : ℚ) (pt : Point) (st : CanvasState)
    (h : st.isDrawing = false ∨ st.lastPoint = none) :
    continueDrawing s rnds dist pt st = (st, [], 0) := by
  obtain ⟨d, lp, rem⟩ := st
  cases d <;> cases lp <;> simp_all [continueDrawing]

/-- Witness for C10 at the idle initial state. -/
theorem continueDrawing_idle_noop_witness :
    continueDrawing penSettings constRnds 5 wP1 initialState =
      (initialState, [], 0) :=
  continueDrawing_idle_noop penSettings constRnds 5 wP1 initialState (Or.inl rfl)
